import Mathlib

/-!
# DM-VIO `FullSystem.h`: container helpers and window bookkeeping

A shallow embedding of the inline helpers of `src/dso/FullSystem/FullSystem.h`
(`deleteOut`, `deleteOutPt`, the two `deleteOutOrder` overloads and
`eigenTestNan`), followed by models of the window and rollback operations
that the header only declares.

Conventions of the embedding:

* a `T*` is an address (`Ptr`, a natural number); `std::vector<T*>` is a
  `List Ptr`, position `0` first, `back()` last;
* `delete p` is recorded by pushing `p` on the `freed` list of the memory
  state; whether the address was live is outside the model;
* an access outside the vector (`v[k]` with `k ≥ size`, `back()` or
  `pop_back()` on an empty vector) is undefined behaviour and is reported as
  `Fault.undefinedBehaviour`; a failed `assert` is `Fault.assertionFailed`;
* loop counters (`unsigned int k`, `int y`, `int x`) and sizes are natural
  numbers: vectors and matrix dimensions are taken to be below `2^31`, so
  that no counter wraps;
* loops whose bound changes while they run carry a fuel argument; the
  callers pass the vector length, which the theorems show to be enough.
-/

namespace dso

/-- Address of a heap object: the value of a `T*`. -/
abbrev Ptr := Nat

/-- Ways in which a helper can fail to return normally. -/
inductive Fault where
  | undefinedBehaviour
  | assertionFailed
  | outOfFuel
  deriving DecidableEq, Repr

deriving instance DecidableEq for Except

/-- The vector passed by reference together with the record of `delete`s. -/
structure Mem where
  v : List Ptr
  freed : List Ptr
  deriving DecidableEq, Repr

/-- Conversion of an `int` subscript to a position: a negative subscript
converts to a huge `size_t` and is out of range. -/
def toIndex (i : Int) : Except Fault Nat :=
  if 0 ≤ i then pure i.toNat else throw Fault.undefinedBehaviour

/-- Read of `v[k]`. -/
def vecAt (v : List Ptr) (k : Nat) : Except Fault Ptr :=
  match v[k]? with
  | some p => pure p
  | none => throw Fault.undefinedBehaviour

/-- Value of `v.back()`. -/
def back (v : List Ptr) : Except Fault Ptr :=
  match v.getLast? with
  | some p => pure p
  | none => throw Fault.undefinedBehaviour

/-- Assignment `v[k] = p`. -/
def assign (v : List Ptr) (k : Nat) (p : Ptr) : Except Fault (List Ptr) :=
  if k < v.length then pure (v.set k p) else throw Fault.undefinedBehaviour

/-- Effect of `v.pop_back()`. -/
def pop_back (v : List Ptr) : Except Fault (List Ptr) :=
  if v.length = 0 then throw Fault.undefinedBehaviour else pure v.dropLast

/-- `deleteOut(v, i)`: `delete v[i]; v[i] = v.back(); v.pop_back();`. -/
def deleteOut (m : Mem) (i : Int) : Except Fault Mem := do
  let k ← toIndex i
  let p ← vecAt m.v k
  let freed := p :: m.freed
  let b ← back m.v
  let v ← assign m.v k b
  let v ← pop_back v
  pure { v := v, freed := freed }

/-- Loop of `deleteOutPt`, entered with counter `k`:
`for(; k<v.size(); k++) if(v[k] == i) { v[k] = v.back(); v.pop_back(); }`. -/
def deleteOutPtLoop (i : Ptr) : Nat → List Ptr → Nat → Except Fault (List Ptr)
  | 0, v, k => if k < v.length then throw Fault.outOfFuel else pure v
  | fuel + 1, v, k =>
    if k < v.length then do
      let p ← vecAt v k
      if p = i then
        let b ← back v
        let v ← assign v k b
        let v ← pop_back v
        deleteOutPtLoop i fuel v (k + 1)
      else
        deleteOutPtLoop i fuel v (k + 1)
    else pure v

/-- `deleteOutPt(v, i)`: `delete i;` followed by the scan of `v`. -/
def deleteOutPt (m : Mem) (i : Ptr) : Except Fault Mem := do
  let freed := i :: m.freed
  let v ← deleteOutPtLoop i m.v.length m.v 0
  pure { v := v, freed := freed }

/-- Shift loop of `deleteOutOrder`, entered with counter `k`:
`for(; k<v.size(); k++) v[k-1] = v[k];`.  With `k = 0` the subscript `k-1`
wraps around and is out of range. -/
def shiftLoop : Nat → List Ptr → Nat → Except Fault (List Ptr)
  | 0, v, k => if k < v.length then throw Fault.outOfFuel else pure v
  | fuel + 1, v, k =>
    if k < v.length then do
      let p ← vecAt v k
      if k = 0 then throw Fault.undefinedBehaviour
      let v ← assign v (k - 1) p
      shiftLoop fuel v (k + 1)
    else pure v

/-- Index overload `deleteOutOrder(v, i)`:
`delete v[i]; for(unsigned int k=i+1; k<v.size(); k++) v[k-1] = v[k]; v.pop_back();`. -/
def deleteOutOrder (m : Mem) (i : Int) : Except Fault Mem := do
  let j ← toIndex i
  let p ← vecAt m.v j
  let freed := p :: m.freed
  let v ← shiftLoop m.v.length m.v (i + 1).toNat
  let v ← pop_back v
  pure { v := v, freed := freed }

/-- Search loop of the element overload, entered with counter `k` and the
current value of `i`:
`for(; k<v.size(); k++) if(v[k] == element) { i=k; break; }`. -/
def findLoop (element : Ptr) (v : List Ptr) : Nat → Nat → Int → Except Fault Int
  | 0, k, i => if k < v.length then throw Fault.outOfFuel else pure i
  | fuel + 1, k, i =>
    if k < v.length then do
      let p ← vecAt v k
      if p = element then pure (k : Int)
      else findLoop element v fuel (k + 1) i
    else pure i

/-- Element overload `deleteOutOrder(v, element)`: search for the first
position holding `element`, `assert(i != -1)`, shift, `pop_back`, then
`delete element`. -/
def deleteOutOrderPtr (m : Mem) (element : Ptr) : Except Fault Mem := do
  let i ← findLoop element m.v m.v.length 0 (-1)
  if i = -1 then throw Fault.assertionFailed
  let v ← shiftLoop m.v.length m.v (i + 1).toNat
  let v ← pop_back v
  pure { v := v, freed := element :: m.freed }

/-- Bit pattern of an IEEE-754 binary64 value, the C++ `double`: bit 63 is
the sign, bits 62..52 the biased exponent, bits 51..0 the fraction. -/
abbrev Double := Nat

/-- Biased exponent field of a `double`. -/
def exponentField (d : Double) : Nat := (d / 2 ^ 52) % 2 ^ 11

/-- Fraction field of a `double`. -/
def fractionField (d : Double) : Nat := d % 2 ^ 52

/-- Sign bit of a `double`. -/
def signBit (d : Double) : Nat := (d / 2 ^ 63) % 2

/-- `std::isfinite(d)`: the exponent field is not all ones. -/
def isfinite (d : Double) : Bool := exponentField d != 2047

/-- A NaN: exponent all ones, fraction non-zero. -/
def isNaN (d : Double) : Bool := exponentField d == 2047 && fractionField d != 0

/-- Plus infinity: exponent all ones, fraction zero, sign clear. -/
def isPosInf (d : Double) : Bool :=
  exponentField d == 2047 && fractionField d == 0 && signBit d == 0

/-- Minus infinity: exponent all ones, fraction zero, sign set. -/
def isNegInf (d : Double) : Bool :=
  exponentField d == 2047 && fractionField d == 0 && signBit d == 1

/-- A dynamic matrix as `eigenTestNan` reads it: `rows()`, `cols()` and the
coefficient `m(y,x)`.  The typedef `MatXX` lives in `util/NumType.h`, so the
scalar type `S` is left open; only coefficients with `y < rows` and
`x < cols` belong to the matrix. -/
structure MatXX (S : Type) where
  rows : Nat
  cols : Nat
  coeff : Nat → Nat → S

/-- What `eigenTestNan` writes to standard output. -/
inductive Output (S : Type) where
  | printf (text : String)
  | coutMatrix (m : MatXX S)
  | coutText (text : String)

/-- `eigenTestNan(m, msg)`: the two nested loops over `y` and `x` set
`foundNan` as soon as `!std::isfinite((double)m(y,x))`; when set, the message
and the matrix are printed; `foundNan` is returned.  `toDouble` is the cast
`(double)` from the scalar type. -/
def eigenTestNan {S : Type} (toDouble : S → Double) (m : MatXX S) (msg : String) :
    Bool × List (Output S) :=
  let foundNan :=
    (List.range m.rows).foldl
      (fun found y =>
        (List.range m.cols).foldl
          (fun found x => if !isfinite (toDouble (m.coeff y x)) then true else found)
          found)
      false
  if foundNan then
    (foundNan,
      [Output.printf ("NAN in " ++ msg ++ ":\n"), Output.coutMatrix m, Output.coutText "\n\n"])
  else (foundNan, [])

/-- `#define MAX_ACTIVE_FRAMES 100`. -/
def MAX_ACTIVE_FRAMES : Nat := 100

/-- Identifier of a frame (of its `FrameHessian`). -/
abbrev FrameId := Nat

/-- The part of `FullSystem` the window bound is about: the active window
`frameHessians` (oldest first, the current frame last) and the frames
marginalized so far (latest first). -/
structure Window where
  frameHessians : List FrameId
  marginalized : List FrameId
  deriving DecidableEq, Repr

/-- Modelled from the spec: the body of `FullSystem::marginalizeFrame` is not
in the header.  Section 4.5: "remove the FrameHessian from the active window;
the FrameShell remains untouched in history".  A frame that is not active
leaves the window as it is. -/
def marginalizeFrame (w : Window) (frame : FrameId) : Window :=
  if frame ∈ w.frameHessians then
    { frameHessians := w.frameHessians.erase frame, marginalized := frame :: w.marginalized }
  else w

/-- Modelled from the spec: the scoring heuristic is external (section 9,
open question), so the score is a parameter; this picks a frame of lowest
score from the candidates, the earliest one on ties. -/
def lowestScoring (score : FrameId → Nat) : List FrameId → Option FrameId
  | [] => none
  | f :: rest =>
    match lowestScoring score rest with
    | none => some f
    | some g => if score g < score f then some g else some f

/-- Modelled from the spec: the body of
`FullSystem::flagFramesForMarginalization` is not in the header.  Section 4.5:
"the lowest-scoring frame (excluding the two most recent) is marginalized.
The current (most recent) frame is never eligible." -/
def flagFramesForMarginalization (score : FrameId → Nat) (w : Window) : Option FrameId :=
  lowestScoring score w.frameHessians.dropLast.dropLast

/-- Modelled from the spec: the body of `FullSystem::makeKeyFrame` is not in
the header.  Section 3: "insertion of a new keyframe that would exceed
capacity must be preceded by marginalization of exactly one frame"; section
4.2: on promotion the `FrameHessian` of the frame joins the active window as
its most recent member.  The capacity is `MAX_ACTIVE_FRAMES`. -/
def makeKeyFrame (score : FrameId → Nat) (w : Window) (fh : FrameId) : Window :=
  let w1 :=
    if w.frameHessians.length + 1 > MAX_ACTIVE_FRAMES then
      match flagFramesForMarginalization score w with
      | some frame => marginalizeFrame w frame
      | none => w
    else w
  { w1 with frameHessians := w1.frameHessians ++ [fh] }

/-- Modelled from the spec: the body of `FullSystem::makeNonKeyFrame` is not
in the header.  Section 4.2: a frame that is not promoted "contributes only a
pose estimate to its FrameShell and is otherwise discarded - no FrameHessian
is ever materialized". -/
def makeNonKeyFrame (w : Window) (_fh : FrameId) : Window := w

/-- Modelled from the spec: the body of `FullSystem::addActiveFrame` is not in
the header.  Section 4.2: the frame is promoted when the tracking heuristic or
the catch-up policy requests it (`needKF`, decided outside), and discarded
otherwise. -/
def addActiveFrame (score : FrameId → Nat) (w : Window) (id : FrameId) (needKF : Bool) :
    Window :=
  if needKF then makeKeyFrame score w id else makeNonKeyFrame w id

/-- A call that changes the active window. -/
inductive Call where
  | addActiveFrame (id : FrameId) (needKF : Bool)
  | marginalizeFrame (frame : FrameId)
  deriving DecidableEq, Repr

/-- Effect of one call on the window. -/
def Call.apply (score : FrameId → Nat) (w : Window) : Call → Window
  | Call.addActiveFrame id needKF => dso.addActiveFrame score w id needKF
  | Call.marginalizeFrame frame => dso.marginalizeFrame w frame

/-- The windows seen while a sequence of calls runs: the starting window
first, then the window after each call. -/
def runCalls (score : FrameId → Nat) : Window → List Call → List Window
  | w, [] => [w]
  | w, c :: cs => w :: runCalls score (c.apply score w) cs

/-- The window of a freshly constructed system. -/
def Window.initial : Window := { frameHessians := [], marginalized := [] }

/-- Bit pattern of one floating-point variable of the optimization state. -/
abbrev Val := Nat

/-- One copy of the mutable optimization variables, by step-scale group:
calibration, the translation and rotation parts of the poses, the affine
photometric parameters and the inverse depths. -/
structure Vars where
  calib : List Val
  translation : List Val
  rotation : List Val
  affine : List Val
  idepth : List Val
  deriving DecidableEq, Repr

/-- The optimization state: the current variables, their backup and the
increment computed by the solver. -/
structure OptState where
  state : Vars
  backup : Vars
  step : Vars
  deriving DecidableEq, Repr

/-- Modelled from the spec: the body of `FullSystem::backupState` is not in
the header.  Section 4.4 (3): "backup the full mutable state (poses, affine
parameters, inverse depths) before applying the increment".  The spec gives
no role to `backupLastStep`. -/
def backupState (s : OptState) (_backupLastStep : Bool) : OptState :=
  { s with backup := s.state }

/-- Modelled from the spec: the body of `FullSystem::doStepFromBackup` is not
in the header.  Section 4.4 (4): "apply the increment with a configurable
step-scale per variable group".  `scaledAdd fac b d` stands for the
floating-point value of `b + fac * d`, and `canBreak` for the returned flag;
both are left open. -/
def doStepFromBackup (scaledAdd : Val → Val → Val → Val) (canBreak : OptState → Bool)
    (s : OptState) (stepfacC stepfacT stepfacR stepfacA stepfacD : Val) : OptState × Bool :=
  let s1 : OptState :=
    { s with
      state :=
        { calib := List.zipWith (scaledAdd stepfacC) s.backup.calib s.step.calib
          translation :=
            List.zipWith (scaledAdd stepfacT) s.backup.translation s.step.translation
          rotation := List.zipWith (scaledAdd stepfacR) s.backup.rotation s.step.rotation
          affine := List.zipWith (scaledAdd stepfacA) s.backup.affine s.step.affine
          idepth := List.zipWith (scaledAdd stepfacD) s.backup.idepth s.step.idepth } }
  (s1, canBreak s1)

/-- Modelled from the spec: the body of `FullSystem::loadSateBackup` is not
in the header.  Section 4.4 (5): "roll back to the backup"; glossary:
"restoring it on rejection". -/
def loadSateBackup (s : OptState) : OptState :=
  { s with state := s.backup }

/-! ## Vector primitives -/

theorem ok_bind {α β : Type} (x : α) (f : α → Except Fault β) :
    (Except.ok x >>= f) = f x := rfl

theorem error_bind {α β : Type} (e : Fault) (f : α → Except Fault β) :
    ((Except.error e : Except Fault α) >>= f) = Except.error e := rfl

theorem toIndex_natCast (k : Nat) : toIndex (k : Int) = Except.ok k := by
  simp [toIndex, pure, Except.pure]

theorem vecAt_eq_ok {v : List Ptr} {k : Nat} {p : Ptr} (h : v[k]? = some p) :
    vecAt v k = Except.ok p := by
  simp [vecAt, h, pure, Except.pure]

theorem vecAt_of_lt {v : List Ptr} {k : Nat} (h : k < v.length) :
    vecAt v k = Except.ok v[k] :=
  vecAt_eq_ok (List.getElem?_eq_getElem h)

theorem back_eq_ok {v : List Ptr} {b : Ptr} (h : v.getLast? = some b) :
    back v = Except.ok b := by
  simp [back, h, pure, Except.pure]

theorem assign_of_lt {v : List Ptr} {k : Nat} (p : Ptr) (h : k < v.length) :
    assign v k p = Except.ok (v.set k p) := by
  simp [assign, h, pure, Except.pure]

theorem pop_back_of_pos {v : List Ptr} (h : 0 < v.length) :
    pop_back v = Except.ok v.dropLast := by
  have : v.length ≠ 0 := Nat.pos_iff_ne_zero.mp h
  simp [pop_back, this, pure, Except.pure]

theorem getLast?_of_lt {v : List Ptr} {k : Nat} (h : k < v.length) :
    ∃ b, v.getLast? = some b ∧ v[v.length - 1]? = some b := by
  have hl : v.length - 1 < v.length := by omega
  exact ⟨v[v.length - 1], by rw [List.getLast?_eq_getElem?, List.getElem?_eq_getElem hl],
    List.getElem?_eq_getElem hl⟩

/-- Positions of the vector left by "overwrite position `k` with `b`, then
drop the last position". -/
theorem getElem?_set_dropLast (v : List Ptr) (k j : Nat) (b : Ptr) :
    ((v.set k b).dropLast)[j]? =
      if j < v.length - 1 then (if j = k then some b else v[j]?) else none := by
  rw [List.getElem?_dropLast]
  simp only [List.length_set]
  by_cases hj : j < v.length - 1
  · simp only [hj, if_true]
    rw [List.getElem?_set]
    by_cases hjk : k = j
    · subst hjk
      have : k < v.length := by omega
      simp [this]
    · have : ¬ j = k := fun h => hjk h.symm
      simp [hjk, this]
  · simp [hj]

theorem perm_cons_set (l : List Ptr) (b : Ptr) :
    ∀ (k : Nat) (hk : k < l.length), (b :: l).Perm (l[k] :: l.set k b) := by
  induction l with
  | nil => intro k hk; simp at hk
  | cons x xs ih =>
    intro k hk
    cases k with
    | zero => exact List.Perm.swap x b xs
    | succ k =>
      have hk2 : k < xs.length := by simpa using hk
      have h1 : (b :: x :: xs).Perm (x :: b :: xs) := List.Perm.swap x b xs
      have h2 : (x :: b :: xs).Perm (x :: xs[k] :: xs.set k b) := (ih k hk2).cons x
      have h3 : (x :: xs[k] :: xs.set k b).Perm (xs[k] :: x :: xs.set k b) :=
        List.Perm.swap _ _ _
      simpa using (h1.trans h2).trans h3

/-- Swap-with-last and pop removes exactly one occurrence of the overwritten
element. -/
theorem perm_cons_set_dropLast (v : List Ptr) (k : Nat) (hk : k < v.length) (b : Ptr)
    (hb : v.getLast? = some b) : v.Perm (v[k] :: (v.set k b).dropLast) := by
  have hv : v.dropLast ++ [b] = v := List.dropLast_append_getLast? b (by simp [hb])
  have hlen : v.dropLast.length = v.length - 1 := List.length_dropLast v
  have h1 : v.Perm (b :: v.dropLast) := by
    have := List.perm_append_singleton b v.dropLast
    rwa [hv] at this
  by_cases hlast : k < v.length - 1
  · have hk2 : k < v.dropLast.length := by omega
    have hset : v.set k b = (v.dropLast.set k b) ++ [b] := by
      conv_lhs => rw [← hv]
      rw [List.set_append, if_pos hk2]
    have hget : v[k] = v.dropLast[k] := by
      simp [List.getElem_dropLast]
    rw [hset, List.dropLast_concat, hget]
    exact h1.trans (perm_cons_set v.dropLast b k hk2)
  · have hke : k = v.length - 1 := by omega
    have hvk : v[k]? = some b := by
      rw [← hb, List.getLast?_eq_getElem?, hke]
    have hvk2 : v[k] = b := by
      have := List.getElem?_eq_getElem hk
      rw [this] at hvk
      exact Option.some.inj hvk
    have hset : v.set k b = v := by
      apply List.ext_getElem?
      intro n
      rw [List.getElem?_set]
      by_cases h : k = n
      · subst h
        simp [hk, hvk]
      · simp [h]
    rw [hset, hvk2]
    exact h1

/-! ## deleteOut -/

theorem deleteOut_eq (m : Mem) (k : Nat) (hk : k < m.v.length) (b : Ptr)
    (hb : m.v.getLast? = some b) :
    deleteOut m (k : Int) = Except.ok { v := (m.v.set k b).dropLast, freed := m.v[k] :: m.freed } := by
  have hpos : 0 < (m.v.set k b).length := by simp; omega
  simp only [deleteOut, bind, Except.bind, toIndex_natCast, vecAt_of_lt hk, back_eq_ok hb,
    assign_of_lt b hk, pop_back_of_pos hpos, pure, Except.pure]

/-- C1: for a vector of length `n ≥ 1` and an index `k < n`, `deleteOut(v, k)`
returns normally; it frees the old `v[k]`, the vector has length `n - 1`,
every position `j < n - 1` other than `k` keeps its element, position `k`
(when `k < n - 1`) holds the old last element, for `k = n - 1` the last
element is simply dropped, and as a multiset the new contents are the old
contents with one occurrence of the old `v[k]` removed. -/
theorem deleteOut_swap_with_last_and_pop (m : Mem) (k : Nat) (hk : k < m.v.length) :
    ∃ m1 : Mem, deleteOut m (k : Int) = Except.ok m1 ∧
      m1.freed = m.v[k] :: m.freed ∧
      m1.v.length = m.v.length - 1 ∧
      (∀ j, j < m.v.length - 1 → j ≠ k → m1.v[j]? = m.v[j]?) ∧
      (k < m.v.length - 1 → m1.v[k]? = m.v[m.v.length - 1]?) ∧
      (k = m.v.length - 1 → m1.v = m.v.dropLast) ∧
      (m1.v : Multiset Ptr) = (m.v : Multiset Ptr).erase m.v[k] := by
  obtain ⟨b, hb, hbl⟩ := getLast?_of_lt hk
  refine ⟨_, deleteOut_eq m k hk b hb, rfl, by simp, ?_, ?_, ?_, ?_⟩
  · intro j hj hjk
    simp only [getElem?_set_dropLast, hj, hjk, if_true, if_false]
  · intro hlast
    simp only [getElem?_set_dropLast, hlast, if_true]
    exact hbl.symm
  · intro hlast
    apply List.ext_getElem?
    intro j
    rw [getElem?_set_dropLast, List.getElem?_dropLast]
    by_cases hj : j < m.v.length - 1
    · have hjk : ¬ j = k := by omega
      simp [hj, hjk]
    · simp [hj]
  · have hperm := perm_cons_set_dropLast m.v k hk b hb
    rw [Multiset.coe_erase, Multiset.coe_eq_coe]
    have := hperm.erase m.v[k]
    simpa using this.symm

/-- The swap-and-pop theorem at the vector `[10, 20, 30, 40]` and index `1`. -/
theorem deleteOut_swap_with_last_and_pop_witness :
    1 < ([10, 20, 30, 40] : List Ptr).length ∧
    ∃ m1 : Mem, deleteOut ⟨[10, 20, 30, 40], []⟩ ((1 : Nat) : Int) = Except.ok m1 ∧
      m1.freed = [20] ∧ m1.v.length = 3 :=
  ⟨by decide,
    (deleteOut_swap_with_last_and_pop ⟨[10, 20, 30, 40], []⟩ 1 (by decide)).imp
      (fun _ h => ⟨h.1, h.2.1, h.2.2.1⟩)⟩

/-! ## deleteOutPt -/

/-- When the sought pointer does not occur at or after the counter, the scan
leaves the vector as it is. -/
theorem deleteOutPtLoop_absent (i : Ptr) :
    ∀ (fuel : Nat) (v : List Ptr) (k : Nat), v.length - k ≤ fuel →
      (∀ j, k ≤ j → v[j]? ≠ some i) → deleteOutPtLoop i fuel v k = Except.ok v := by
  intro fuel
  induction fuel with
  | zero =>
    intro v k hf _
    have hk : ¬ k < v.length := by omega
    simp [deleteOutPtLoop, hk, pure, Except.pure]
  | succ n ih =>
    intro v k hf h
    by_cases hk : k < v.length
    · have hne : ¬ v[k] = i := by
        intro e
        apply h k (Nat.le_refl k)
        rw [List.getElem?_eq_getElem hk, e]
      simp only [deleteOutPtLoop, hk, if_true, vecAt_of_lt hk, bind, Except.bind, hne, if_false]
      exact ih v (k + 1) (by omega) (fun j hj => h j (by omega))
    · simp [deleteOutPtLoop, hk, pure, Except.pure]

/-- When the sought pointer occurs exactly once at or after the counter, at
position `j0`, the scan overwrites that position with the last element and
drops the last position. -/
theorem deleteOutPtLoop_single (i : Ptr) (j0 : Nat) :
    ∀ (fuel : Nat) (v : List Ptr) (k : Nat) (b : Ptr), v.length - k ≤ fuel → k ≤ j0 →
      v[j0]? = some i → v.getLast? = some b →
      (∀ j, k ≤ j → v[j]? = some i → j = j0) →
      deleteOutPtLoop i fuel v k = Except.ok (v.set j0 b).dropLast := by
  intro fuel
  induction fuel with
  | zero =>
    intro v k b hf hkj hj0 _ _
    have : j0 < v.length := (List.getElem?_eq_some.mp hj0).1
    omega
  | succ n ih =>
    intro v k b hf hkj hj0 hb huniq
    have hj0lt : j0 < v.length := (List.getElem?_eq_some.mp hj0).1
    have hk : k < v.length := by omega
    by_cases hkeq : k = j0
    · subst hkeq
      have hpos : 0 < (v.set k b).length := by simp; omega
      simp only [deleteOutPtLoop, hk, if_true, vecAt_eq_ok hj0, bind, Except.bind,
        back_eq_ok hb, assign_of_lt b hk, pop_back_of_pos hpos]
      apply deleteOutPtLoop_absent
      · simp; omega
      · intro j hj hji
        rw [getElem?_set_dropLast] at hji
        by_cases hjl : j < v.length - 1
        · have hjk : ¬ j = k := by omega
          simp only [hjl, hjk, if_true, if_false] at hji
          have := huniq j (by omega) hji
          omega
        · simp [hjl] at hji
    · have hne : ¬ v[k] = i := by
        intro e
        apply hkeq
        apply huniq k (Nat.le_refl k)
        rw [List.getElem?_eq_getElem hk, e]
      simp only [deleteOutPtLoop, hk, if_true, vecAt_of_lt hk, bind, Except.bind, hne, if_false]
      exact ih v (k + 1) b (by omega) (by omega) hj0 hb (fun j hj => huniq j (by omega))

/-- C2 (evaluation at the failing inputs): on the vector `[7, 7]` the call
`deleteOutPt(v, 7)` returns normally, has freed address `7`, and the vector
it leaves still holds `7`; the same happens on `[7, 5, 7]`.  The element
moved in from the back is not examined again, so "after the call no element
of `v` equals `i`" fails there. -/
theorem deleteOutPt_keeps_duplicate_moved_from_back :
    deleteOutPt ⟨[7, 7], []⟩ 7 = Except.ok ⟨[7], [7]⟩ ∧
    deleteOutPt ⟨[7, 5, 7], []⟩ 7 = Except.ok ⟨[7, 5], [7]⟩ ∧
    ¬ (∀ (m m1 : Mem) (i : Ptr), deleteOutPt m i = Except.ok m1 → ∀ p, p ∈ m1.v → p ≠ i) := by
  have h : deleteOutPt ⟨[7, 7], []⟩ 7 = Except.ok ⟨[7], [7]⟩ := by decide
  refine ⟨h, by decide, fun hall => ?_⟩
  exact hall _ _ 7 h 7 (by simp) rfl

/-- C8: when the pointer `i` occurs in `v` exactly once, at index `k`, the
call `deleteOutPt(v, i)` returns normally and leaves exactly the memory state
that `deleteOut(v, k)` leaves: the length drops by one, position `k` holds
the old last element when `k` is not the last index, and every other
retained position is unchanged. -/
theorem deleteOutPt_refines_deleteOut (m : Mem) (i : Ptr) (k : Nat)
    (hk : m.v[k]? = some i) (honce : ∀ j, m.v[j]? = some i → j = k) :
    ∃ m1 : Mem, deleteOutPt m i = Except.ok m1 ∧ deleteOut m (k : Int) = Except.ok m1 ∧
      m1.v.length = m.v.length - 1 ∧
      (k < m.v.length - 1 → m1.v[k]? = m.v[m.v.length - 1]?) ∧
      (∀ j, j < m.v.length - 1 → j ≠ k → m1.v[j]? = m.v[j]?) := by
  obtain ⟨hklt, hvk⟩ := List.getElem?_eq_some.mp hk
  obtain ⟨b, hb, hbl⟩ := getLast?_of_lt hklt
  have hloop := deleteOutPtLoop_single i k m.v.length m.v 0 b (by omega) (Nat.zero_le k) hk hb
    (fun j _ hj => honce j hj)
  refine ⟨{ v := (m.v.set k b).dropLast, freed := i :: m.freed }, ?_, ?_, by simp, ?_, ?_⟩
  · simp only [deleteOutPt, bind, Except.bind, hloop, pure, Except.pure]
  · rw [deleteOut_eq m k hklt b hb, hvk]
  · intro hlast
    simp only [getElem?_set_dropLast, hlast, if_true]
    exact hbl.symm
  · intro j hj hjk
    simp only [getElem?_set_dropLast, hj, hjk, if_true, if_false]

/-- The refinement theorem at the vector `[10, 20, 30, 40]` and the pointer `20`,
which occurs once, at index `1`. -/
theorem deleteOutPt_refines_deleteOut_witness :
    ([10, 20, 30, 40] : List Ptr)[1]? = some 20 ∧
    (∀ j, ([10, 20, 30, 40] : List Ptr)[j]? = some 20 → j = 1) ∧
    ∃ m1 : Mem, deleteOutPt ⟨[10, 20, 30, 40], []⟩ 20 = Except.ok m1 ∧
      deleteOut ⟨[10, 20, 30, 40], []⟩ ((1 : Nat) : Int) = Except.ok m1 ∧
      m1.v.length = 3 :=
  have h1 : ([10, 20, 30, 40] : List Ptr)[1]? = some 20 := by decide
  have h2 : ∀ j, ([10, 20, 30, 40] : List Ptr)[j]? = some 20 → j = 1 := by
    intro j hj
    match j, hj with
    | 0, hj => simp at hj
    | 1, _ => rfl
    | 2, hj => simp at hj
    | 3, hj => simp at hj
    | n + 4, hj => simp at hj
  ⟨h1, h2,
    (deleteOutPt_refines_deleteOut ⟨[10, 20, 30, 40], []⟩ 20 1 h1 h2).imp
      (fun _ h => ⟨h.1, h.2.1, h.2.2.1⟩)⟩

/-! ## deleteOutOrder -/

/-- The shift loop entered with counter `k ≥ 1` returns normally; positions
before `k - 1` keep their element, every position from `k - 1` up to the
last but one receives the element of its right neighbour, and the last
position is unchanged. -/
theorem shiftLoop_spec :
    ∀ (fuel : Nat) (v : List Ptr) (k : Nat), 1 ≤ k → v.length - k ≤ fuel →
      ∃ w : List Ptr, shiftLoop fuel v k = Except.ok w ∧ w.length = v.length ∧
        ∀ j, w[j]? =
          if j + 1 < k then v[j]? else if j + 1 < v.length then v[j + 1]? else v[j]? := by
  intro fuel
  induction fuel with
  | zero =>
    intro v k _ hf
    have hk : ¬ k < v.length := by omega
    refine ⟨v, by simp [shiftLoop, hk, pure, Except.pure], rfl, ?_⟩
    intro j
    by_cases h1 : j + 1 < k
    · simp [h1]
    · have h2 : ¬ j + 1 < v.length := by omega
      simp [h1, h2]
  | succ n ih =>
    intro v k hk1 hf
    by_cases hk : k < v.length
    · have hk0 : ¬ k = 0 := by omega
      have hkm : k - 1 < v.length := by omega
      obtain ⟨w, hw, hlen, hget⟩ := ih (v.set (k - 1) v[k]) (k + 1) (by omega)
        (by simp; omega)
      refine ⟨w, ?_, by simpa using hlen, ?_⟩
      · simp only [shiftLoop, hk, if_true, vecAt_of_lt hk, bind, Except.bind, hk0, if_false,
          assign_of_lt v[k] hkm, pure, Except.pure]
        exact hw
      · intro j
        rw [hget j]
        simp only [List.length_set, List.getElem?_set]
        by_cases h1 : j + 1 < k
        · have h2 : j + 1 < k + 1 := by omega
          have h3 : ¬ k - 1 = j := by omega
          simp [h1, h2, h3]
        · by_cases h4 : j + 1 = k
          · have h2 : j + 1 < k + 1 := by omega
            have h3 : k - 1 = j := by omega
            have h5 : j + 1 < v.length := by omega
            have h6 : j < v.length := by omega
            subst h4
            simp [h5, h6]
          · have h2 : ¬ j + 1 < k + 1 := by omega
            have h3 : ¬ k - 1 = j := by omega
            have h5 : ¬ k - 1 = j + 1 := by omega
            simp [h1, h2, h3, h5]
    · refine ⟨v, by simp [shiftLoop, hk, pure, Except.pure], rfl, ?_⟩
      intro j
      by_cases h1 : j + 1 < k
      · simp [h1]
      · have h2 : ¬ j + 1 < v.length := by omega
        simp [h1, h2]

/-- Shift from `k + 1` followed by `pop_back` erases position `k`. -/
theorem shiftLoop_pop_back (v : List Ptr) (k : Nat) (hk : k < v.length) :
    (shiftLoop v.length v (k + 1) >>= pop_back) = Except.ok (v.eraseIdx k) := by
  obtain ⟨w, hw, hlen, hget⟩ := shiftLoop_spec v.length v (k + 1) (by omega) (by omega)
  have hpos : 0 < w.length := by omega
  rw [hw, ok_bind, pop_back_of_pos hpos]
  congr 1
  apply List.ext_getElem?
  intro j
  rw [List.getElem?_dropLast, hget j, hlen, List.getElem?_eraseIdx]
  by_cases h1 : j < k
  · have h2 : j < v.length - 1 := by omega
    have h3 : j + 1 < k + 1 := by omega
    simp [h1, h2, h3]
  · have h3 : ¬ j + 1 < k + 1 := by omega
    by_cases h2 : j < v.length - 1
    · have h4 : j + 1 < v.length := by omega
      simp [h1, h2, h3, h4]
    · have h4 : v.length ≤ j + 1 := by omega
      simp [h1, h2, List.getElem?_eq_none h4]

theorem deleteOutOrder_eq (m : Mem) (k : Nat) (hk : k < m.v.length) :
    deleteOutOrder m (k : Int) =
      Except.ok { v := m.v.eraseIdx k, freed := m.v[k] :: m.freed } := by
  have hcast : ((k : Int) + 1).toNat = k + 1 := by omega
  have h := shiftLoop_pop_back m.v k hk
  simp only [bind, Except.bind] at h
  simp only [deleteOutOrder, bind, Except.bind, toIndex_natCast, vecAt_of_lt hk, hcast, pure,
    Except.pure]
  revert h
  cases shiftLoop m.v.length m.v (k + 1) with
  | error e => intro h; cases h
  | ok w =>
    intro h
    simp only at h ⊢
    rw [h]

/-- C4: for a vector of length `n ≥ 1` and an index `k < n`, the index
overload `deleteOutOrder(v, k)` returns normally, frees the old `v[k]` and
leaves the old sequence with position `k` erased: the length is `n - 1`,
every position `j < k` keeps its element, and every position `j` with
`k ≤ j < n - 1` holds the old `v[j + 1]`. -/
theorem deleteOutOrder_index_erases_in_order (m : Mem) (k : Nat) (hk : k < m.v.length) :
    ∃ m1 : Mem, deleteOutOrder m (k : Int) = Except.ok m1 ∧
      m1.freed = m.v[k] :: m.freed ∧
      m1.v = m.v.eraseIdx k ∧
      m1.v.length = m.v.length - 1 ∧
      (∀ j, j < k → m1.v[j]? = m.v[j]?) ∧
      (∀ j, k ≤ j → j < m.v.length - 1 → m1.v[j]? = m.v[j + 1]?) := by
  refine ⟨_, deleteOutOrder_eq m k hk, rfl, rfl, ?_, ?_, ?_⟩
  · simp [List.length_eraseIdx, hk]
  · intro j hj
    simp [List.getElem?_eraseIdx, hj]
  · intro j hj _
    have : ¬ j < k := by omega
    simp [List.getElem?_eraseIdx, this]

/-- The ordered-erase theorem at the vector `[10, 20, 30, 40]` and index `1`. -/
theorem deleteOutOrder_index_erases_in_order_witness :
    1 < ([10, 20, 30, 40] : List Ptr).length ∧
    ∃ m1 : Mem, deleteOutOrder ⟨[10, 20, 30, 40], []⟩ ((1 : Nat) : Int) = Except.ok m1 ∧
      m1.freed = [20] ∧ m1.v = [10, 30, 40] :=
  ⟨by decide,
    (deleteOutOrder_index_erases_in_order ⟨[10, 20, 30, 40], []⟩ 1 (by decide)).imp
      (fun _ h => ⟨h.1, h.2.1, h.2.2.1⟩)⟩

/-- When `element` does not occur at or after the counter, the search
leaves `i` as it was. -/
theorem findLoop_absent (element : Ptr) (v : List Ptr) (i : Int) :
    ∀ (fuel k : Nat), v.length - k ≤ fuel → (∀ j, k ≤ j → v[j]? ≠ some element) →
      findLoop element v fuel k i = Except.ok i := by
  intro fuel
  induction fuel with
  | zero =>
    intro k hf _
    have hk : ¬ k < v.length := by omega
    simp [findLoop, hk, pure, Except.pure]
  | succ n ih =>
    intro k hf h
    by_cases hk : k < v.length
    · have hne : ¬ v[k] = element := by
        intro e
        apply h k (Nat.le_refl k)
        rw [List.getElem?_eq_getElem hk, e]
      simp only [findLoop, hk, if_true, vecAt_of_lt hk, bind, Except.bind, hne, if_false]
      exact ih (k + 1) (by omega) (fun j hj => h j (by omega))
    · simp [findLoop, hk, pure, Except.pure]

/-- When `j0` is the first position at or after the counter that holds
`element`, the search stops there with `i = j0`. -/
theorem findLoop_first (element : Ptr) (v : List Ptr) (i : Int) (j0 : Nat)
    (hj0 : v[j0]? = some element) :
    ∀ (fuel k : Nat), v.length - k ≤ fuel → k ≤ j0 →
      (∀ j, k ≤ j → j < j0 → v[j]? ≠ some element) →
      findLoop element v fuel k i = Except.ok (j0 : Int) := by
  have hj0lt : j0 < v.length := (List.getElem?_eq_some.mp hj0).1
  intro fuel
  induction fuel with
  | zero =>
    intro k hf hkj _
    omega
  | succ n ih =>
    intro k hf hkj hfirst
    have hk : k < v.length := by omega
    by_cases hkeq : k = j0
    · subst hkeq
      simp only [findLoop, hk, if_true, vecAt_eq_ok hj0, bind, Except.bind, pure, Except.pure]
    · have hne : ¬ v[k] = element := by
        intro e
        apply hfirst k (Nat.le_refl k) (by omega)
        rw [List.getElem?_eq_getElem hk, e]
      simp only [findLoop, hk, if_true, vecAt_of_lt hk, bind, Except.bind, hne, if_false]
      exact ih (k + 1) (by omega) (by omega) (fun j hj hjl => hfirst j (by omega) hjl)

/-- Erasing the first position that holds `e` is `List.erase e`. -/
theorem eraseIdx_first_eq_erase (e : Ptr) :
    ∀ (l : List Ptr) (k : Nat), l[k]? = some e → (∀ j, j < k → l[j]? ≠ some e) →
      l.eraseIdx k = l.erase e := by
  intro l
  induction l with
  | nil => intro k hk _; simp at hk
  | cons x xs ih =>
    intro k hk hfirst
    cases k with
    | zero =>
      have hx : x = e := by simpa using hk
      subst hx
      simp
    | succ k =>
      have hx : ¬ x = e := by
        intro hxe
        exact hfirst 0 (Nat.succ_pos k) (by simp [hxe])
      have hk2 : xs[k]? = some e := by simpa using hk
      have hbeq : ¬ (x == e) = true := by simpa using hx
      rw [List.eraseIdx_cons_succ, List.erase_cons_tail hbeq]
      rw [ih k hk2 (fun j hj => by simpa using hfirst (j + 1) (Nat.succ_lt_succ hj))]

theorem deleteOutOrderPtr_absent (m : Mem) (element : Ptr) (h : element ∉ m.v) :
    deleteOutOrderPtr m element = Except.error Fault.assertionFailed := by
  have hfind := findLoop_absent element m.v (-1) m.v.length 0 (by omega)
    (fun j _ hj => h (List.mem_iff_getElem?.mpr ⟨j, hj⟩))
  simp [deleteOutOrderPtr, bind, Except.bind, hfind, throw, throwThe, MonadExceptOf.throw]

theorem deleteOutOrderPtr_first (m : Mem) (element : Ptr) (k : Nat)
    (hk : m.v[k]? = some element) (hfirst : ∀ j, j < k → m.v[j]? ≠ some element) :
    deleteOutOrderPtr m element =
      Except.ok { v := m.v.eraseIdx k, freed := element :: m.freed } := by
  have hklt : k < m.v.length := (List.getElem?_eq_some.mp hk).1
  have hfind := findLoop_first element m.v (-1) k hk m.v.length 0 (by omega) (Nat.zero_le k)
    (fun j _ hj => hfirst j hj)
  have hne : ¬ ((k : Int) = -1) := by omega
  have hcast : ((k : Int) + 1).toNat = k + 1 := by omega
  have h := shiftLoop_pop_back m.v k hklt
  simp only [bind, Except.bind] at h
  simp only [deleteOutOrderPtr, bind, Except.bind, hfind, hne, if_false, hcast, pure,
    Except.pure]
  revert h
  cases shiftLoop m.v.length m.v (k + 1) with
  | error e => intro h; cases h
  | ok w =>
    intro h
    simp only at h ⊢
    rw [h]

/-- C5: the element overload `deleteOutOrder(v, element)` passes its
assertion exactly when `element` occurs in `v`; and for `k` the least index
with `v[k] == element` it returns normally with the very memory state the
index overload `deleteOutOrder(v, k)` produces: `element` is freed and the
vector is the old sequence with only its first occurrence of `element`
erased, all other elements in their old order. -/
theorem deleteOutOrder_element_erases_first_occurrence (m : Mem) (element : Ptr) :
    (deleteOutOrderPtr m element ≠ Except.error Fault.assertionFailed ↔ element ∈ m.v) ∧
    (element ∈ m.v →
      ∃ k : Nat, m.v[k]? = some element ∧ (∀ j : Nat, j < k → m.v[j]? ≠ some element)) ∧
    ∀ k : Nat, m.v[k]? = some element → (∀ j : Nat, j < k → m.v[j]? ≠ some element) →
      ∃ m1 : Mem, deleteOutOrderPtr m element = Except.ok m1 ∧
        deleteOutOrder m (k : Int) = Except.ok m1 ∧
        m1.v = m.v.erase element ∧
        m1.v = m.v.eraseIdx k ∧
        m1.freed = element :: m.freed := by
  classical
  have hleast : element ∈ m.v →
      ∃ k : Nat, m.v[k]? = some element ∧ (∀ j : Nat, j < k → m.v[j]? ≠ some element) := by
    intro hmem
    have hex : ∃ k, m.v[k]? = some element := List.mem_iff_getElem?.mp hmem
    exact ⟨Nat.find hex, Nat.find_spec hex, fun j hj => Nat.find_min hex hj⟩
  refine ⟨⟨?_, ?_⟩, hleast, ?_⟩
  · intro hne
    by_contra hmem
    exact hne (deleteOutOrderPtr_absent m element hmem)
  · intro hmem
    obtain ⟨k, hk, hfirst⟩ := hleast hmem
    rw [deleteOutOrderPtr_first m element k hk hfirst]
    intro h
    cases h
  · intro k hk hfirst
    obtain ⟨hklt, hvk⟩ := List.getElem?_eq_some.mp hk
    refine ⟨_, deleteOutOrderPtr_first m element k hk hfirst, ?_,
      (eraseIdx_first_eq_erase element m.v k hk hfirst), rfl, rfl⟩
    rw [deleteOutOrder_eq m k hklt, hvk]

/-- The element-overload theorem at the vector `[10, 20, 30, 20]` and the
pointer `20`, whose least index is `1`; the later duplicate stays. -/
theorem deleteOutOrder_element_erases_first_occurrence_witness :
    ([10, 20, 30, 20] : List Ptr)[1]? = some 20 ∧
    (∀ j : Nat, j < 1 → ([10, 20, 30, 20] : List Ptr)[j]? ≠ some 20) ∧
    ∃ m1 : Mem, deleteOutOrderPtr ⟨[10, 20, 30, 20], []⟩ 20 = Except.ok m1 ∧
      deleteOutOrder ⟨[10, 20, 30, 20], []⟩ ((1 : Nat) : Int) = Except.ok m1 ∧
      m1.v = [10, 30, 20] :=
  have h1 : ([10, 20, 30, 20] : List Ptr)[1]? = some 20 := by decide
  have h2 : ∀ j : Nat, j < 1 → ([10, 20, 30, 20] : List Ptr)[j]? ≠ some 20 := by
    intro j hj
    have hj0 : j = 0 := by omega
    subst hj0
    decide
  ⟨h1, h2,
    ((deleteOutOrder_element_erases_first_occurrence ⟨[10, 20, 30, 20], []⟩ 20).2.2 1
        h1 h2).imp
      (fun _ h => ⟨h.1, h.2.1, h.2.2.1⟩)⟩

/-! ## eigenTestNan -/

/-- A loop that only ever raises a flag ends with the flag raised exactly
when it was raised at entry or some iteration raises it. -/
theorem foldl_raise_flag {ι : Type} (p : ι → Bool) :
    ∀ (l : List ι) (init : Bool),
      l.foldl (fun found x => if p x then true else found) init = (init || l.any p) := by
  intro l
  induction l with
  | nil => intro init; simp
  | cons a as ih =>
    intro init
    rw [List.foldl_cons, ih]
    cases hp : p a <;> cases init <;> simp [hp]

theorem foldl_rows_raise_flag {ι κ : Type} (p : ι → κ → Bool) (cols : List κ) :
    ∀ (l : List ι) (init : Bool),
      l.foldl (fun found y => cols.foldl (fun found x => if p y x then true else found) found)
          init
        = (init || l.any (fun y => cols.any (p y))) := by
  intro l
  induction l with
  | nil => intro init; simp
  | cons a as ih =>
    intro init
    rw [List.foldl_cons, ih, foldl_raise_flag]
    simp [Bool.or_assoc]

theorem eigenTestNan_fst {S : Type} (toDouble : S → Double) (m : MatXX S) (msg : String) :
    (eigenTestNan toDouble m msg).1 =
      (List.range m.rows).any
        (fun y => (List.range m.cols).any (fun x => !isfinite (toDouble (m.coeff y x)))) := by
  have h := foldl_rows_raise_flag (fun y x => !isfinite (toDouble (m.coeff y x)))
    (List.range m.cols) (List.range m.rows) false
  simp only [Bool.false_or] at h
  unfold eigenTestNan
  simp only [h]
  split <;> rfl

/-- A `double` is not finite exactly when it is a NaN, plus infinity or minus
infinity. -/
theorem not_isfinite_iff (d : Double) :
    isfinite d = false ↔ (isNaN d = true ∨ isPosInf d = true ∨ isNegInf d = true) := by
  have hs : signBit d = 0 ∨ signBit d = 1 := by
    unfold signBit
    omega
  simp only [isfinite, isNaN, isPosInf, isNegInf, bne_eq_false_iff_eq, Bool.and_eq_true,
    beq_iff_eq, bne_iff_ne, ne_eq]
  constructor
  · intro he
    by_cases hf : fractionField d = 0
    · rcases hs with h0 | h1
      · exact Or.inr (Or.inl ⟨⟨he, hf⟩, h0⟩)
      · exact Or.inr (Or.inr ⟨⟨he, hf⟩, h1⟩)
    · exact Or.inl ⟨he, hf⟩
  · rintro (h | h | h)
    · exact h.1
    · exact h.1.1
    · exact h.1.1

/-- C3: for a matrix of any dimensions and any message, `eigenTestNan(m, msg)`
returns true exactly when some entry `m(y,x)` with `y < rows` and `x < cols`
is not finite, that is a NaN, plus infinity or minus infinity; it returns
false when the matrix has no rows or no columns; and the returned flag is the
same for every message. -/
theorem eigenTestNan_true_iff_some_entry_not_finite {S : Type} (toDouble : S → Double)
    (m : MatXX S) (msg : String) :
    ((eigenTestNan toDouble m msg).1 = true ↔
      ∃ y, y < m.rows ∧ ∃ x, x < m.cols ∧ isfinite (toDouble (m.coeff y x)) = false) ∧
    ((eigenTestNan toDouble m msg).1 = true ↔
      ∃ y, y < m.rows ∧ ∃ x, x < m.cols ∧
        (isNaN (toDouble (m.coeff y x)) = true ∨ isPosInf (toDouble (m.coeff y x)) = true ∨
          isNegInf (toDouble (m.coeff y x)) = true)) ∧
    ((eigenTestNan toDouble m msg).1 = false ↔
      ∀ y, y < m.rows → ∀ x, x < m.cols → isfinite (toDouble (m.coeff y x)) = true) ∧
    (m.rows = 0 ∨ m.cols = 0 → (eigenTestNan toDouble m msg).1 = false) ∧
    (∀ msg2 : String, (eigenTestNan toDouble m msg2).1 = (eigenTestNan toDouble m msg).1) := by
  have h1 : (eigenTestNan toDouble m msg).1 = true ↔
      ∃ y, y < m.rows ∧ ∃ x, x < m.cols ∧ isfinite (toDouble (m.coeff y x)) = false := by
    rw [eigenTestNan_fst]
    simp [List.any_eq_true, List.mem_range]
  have h3 : (eigenTestNan toDouble m msg).1 = false ↔
      ∀ y, y < m.rows → ∀ x, x < m.cols → isfinite (toDouble (m.coeff y x)) = true := by
    rw [← Bool.not_eq_true, h1]
    simp
  refine ⟨h1, ?_, h3, ?_, ?_⟩
  · rw [h1]
    simp only [not_isfinite_iff]
  · intro hdim
    rw [h3]
    intro y hy x hx
    omega
  · intro msg2
    rw [eigenTestNan_fst, eigenTestNan_fst]

/-- The flag theorem at a matrix without rows and at a 2x2 matrix whose entry
`(1,0)` is plus infinity. -/
theorem eigenTestNan_true_iff_some_entry_not_finite_witness :
    (eigenTestNan id (⟨0, 3, fun _ _ => 2047 * 2 ^ 52⟩ : MatXX Double) "H").1 = false ∧
    (eigenTestNan id
      (⟨2, 2, fun y x => if y = 1 ∧ x = 0 then 2047 * 2 ^ 52 else 0⟩ : MatXX Double) "H").1
      = true :=
  ⟨(eigenTestNan_true_iff_some_entry_not_finite id
      (⟨0, 3, fun _ _ => 2047 * 2 ^ 52⟩ : MatXX Double) "H").2.2.2.1 (Or.inl rfl),
    (eigenTestNan_true_iff_some_entry_not_finite id
      (⟨2, 2, fun y x => if y = 1 ∧ x = 0 then 2047 * 2 ^ 52 else 0⟩ : MatXX Double) "H").1.mpr
      ⟨1, by decide, 0, by decide, by decide⟩⟩

/-! ## Window bound -/

theorem lowestScoring_mem (score : FrameId → Nat) :
    ∀ (l : List FrameId) (g : FrameId), lowestScoring score l = some g → g ∈ l := by
  intro l
  induction l with
  | nil => intro g h; simp [lowestScoring] at h
  | cons f rest ih =>
    intro g h
    cases hrest : lowestScoring score rest with
    | none =>
      simp only [lowestScoring, hrest, Option.some.injEq] at h
      simp [← h]
    | some g2 =>
      simp only [lowestScoring, hrest] at h
      by_cases hlt : score g2 < score f
      · simp only [hlt, if_true, Option.some.injEq] at h
        subst h
        exact List.mem_cons_of_mem _ (ih g2 hrest)
      · simp only [hlt, if_false, Option.some.injEq] at h
        simp [← h]

theorem lowestScoring_of_ne_nil (score : FrameId → Nat) (l : List FrameId) (h : l ≠ []) :
    ∃ g, lowestScoring score l = some g := by
  cases l with
  | nil => exact absurd rfl h
  | cons f rest =>
    cases hrest : lowestScoring score rest with
    | none => exact ⟨f, by simp [lowestScoring, hrest]⟩
    | some g2 =>
      by_cases hlt : score g2 < score f
      · exact ⟨g2, by simp [lowestScoring, hrest, hlt]⟩
      · exact ⟨f, by simp [lowestScoring, hrest, hlt]⟩

/-- A window of at least three frames has a frame to retire, and that frame
is active. -/
theorem flagFramesForMarginalization_of_three (score : FrameId → Nat) (w : Window)
    (h : 3 ≤ w.frameHessians.length) :
    ∃ frame, frame ∈ w.frameHessians ∧ flagFramesForMarginalization score w = some frame := by
  have hne : w.frameHessians.dropLast.dropLast ≠ [] := by
    intro hnil
    have := congrArg List.length hnil
    simp at this
    omega
  obtain ⟨g, hg⟩ := lowestScoring_of_ne_nil score _ hne
  refine ⟨g, ?_, hg⟩
  exact List.mem_of_mem_dropLast (List.mem_of_mem_dropLast (lowestScoring_mem score _ g hg))

theorem makeKeyFrame_when_full (score : FrameId → Nat) (w : Window) (fh : FrameId)
    (hfull : MAX_ACTIVE_FRAMES < w.frameHessians.length + 1) :
    ∃ frame, frame ∈ w.frameHessians ∧
      makeKeyFrame score w fh =
        { frameHessians := w.frameHessians.erase frame ++ [fh],
          marginalized := frame :: w.marginalized } := by
  have h3 : 3 ≤ w.frameHessians.length := by
    unfold MAX_ACTIVE_FRAMES at hfull
    omega
  obtain ⟨frame, hmem, hflag⟩ := flagFramesForMarginalization_of_three score w h3
  refine ⟨frame, hmem, ?_⟩
  have hgt : w.frameHessians.length + 1 > MAX_ACTIVE_FRAMES := hfull
  simp [makeKeyFrame, hgt, hflag, marginalizeFrame, hmem]

theorem makeKeyFrame_length_le (score : FrameId → Nat) (w : Window) (fh : FrameId)
    (h : w.frameHessians.length ≤ MAX_ACTIVE_FRAMES) :
    (makeKeyFrame score w fh).frameHessians.length ≤ MAX_ACTIVE_FRAMES := by
  by_cases hfull : MAX_ACTIVE_FRAMES < w.frameHessians.length + 1
  · obtain ⟨frame, hmem, heq⟩ := makeKeyFrame_when_full score w fh hfull
    have hpos : 0 < w.frameHessians.length := List.length_pos_of_mem hmem
    rw [heq]
    simp [List.length_erase_of_mem hmem]
    omega
  · have hgt : ¬ w.frameHessians.length + 1 > MAX_ACTIVE_FRAMES := hfull
    simp [makeKeyFrame, hgt]
    omega

theorem marginalizeFrame_length_le (w : Window) (frame : FrameId) :
    (marginalizeFrame w frame).frameHessians.length ≤ w.frameHessians.length := by
  unfold marginalizeFrame
  by_cases hmem : frame ∈ w.frameHessians
  · simp [hmem, List.length_erase_of_mem hmem]
  · simp [hmem]

theorem apply_length_le (score : FrameId → Nat) (w : Window) (c : Call)
    (h : w.frameHessians.length ≤ MAX_ACTIVE_FRAMES) :
    (c.apply score w).frameHessians.length ≤ MAX_ACTIVE_FRAMES := by
  cases c with
  | addActiveFrame id needKF =>
    cases needKF with
    | true => simpa [Call.apply, addActiveFrame] using makeKeyFrame_length_le score w id h
    | false => simpa [Call.apply, addActiveFrame, makeNonKeyFrame] using h
  | marginalizeFrame frame =>
    exact Nat.le_trans (marginalizeFrame_length_le w frame) h

theorem runCalls_length_le (score : FrameId → Nat) :
    ∀ (calls : List Call) (w0 : Window), w0.frameHessians.length ≤ MAX_ACTIVE_FRAMES →
      ∀ w, w ∈ runCalls score w0 calls → w.frameHessians.length ≤ MAX_ACTIVE_FRAMES := by
  intro calls
  induction calls with
  | nil =>
    intro w0 h0 w hw
    simp only [runCalls, List.mem_singleton] at hw
    rw [hw]
    exact h0
  | cons c cs ih =>
    intro w0 h0 w hw
    simp only [runCalls, List.mem_cons] at hw
    rcases hw with hw | hw
    · rw [hw]
      exact h0
    · exact ih (c.apply score w0) (apply_length_le score w0 c h0) w hw

/-- C6: along every sequence of frame additions (promoting or not) and
frame marginalizations, started from the empty window, the active window
never holds more than `MAX_ACTIVE_FRAMES` frames; and at every window
reached, a promotion that would exceed the capacity first marginalizes
exactly one active frame and then appends the new keyframe. -/
theorem active_window_never_exceeds_capacity (score : FrameId → Nat) (calls : List Call)
    (w : Window) (hw : w ∈ runCalls score Window.initial calls) :
    w.frameHessians.length ≤ MAX_ACTIVE_FRAMES ∧
    ∀ fh, MAX_ACTIVE_FRAMES < w.frameHessians.length + 1 →
      ∃ frame, frame ∈ w.frameHessians ∧
        makeKeyFrame score w fh =
          { frameHessians := w.frameHessians.erase frame ++ [fh],
            marginalized := frame :: w.marginalized } ∧
        (makeKeyFrame score w fh).frameHessians.length = w.frameHessians.length := by
  refine ⟨runCalls_length_le score calls Window.initial (by decide) w hw, ?_⟩
  intro fh hfull
  obtain ⟨frame, hmem, heq⟩ := makeKeyFrame_when_full score w fh hfull
  refine ⟨frame, hmem, heq, ?_⟩
  have hpos : 0 < w.frameHessians.length := List.length_pos_of_mem hmem
  rw [heq]
  simp [List.length_erase_of_mem hmem]
  omega

/-- The window bound at a run of five calls and the window it ends in. -/
theorem active_window_never_exceeds_capacity_witness :
    (⟨[4, 7], [5]⟩ : Window) ∈
      runCalls (fun _ => 0) Window.initial
        [Call.addActiveFrame 4 true, Call.addActiveFrame 5 true, Call.addActiveFrame 6 false,
          Call.marginalizeFrame 5, Call.addActiveFrame 7 true] ∧
    (⟨[4, 7], [5]⟩ : Window).frameHessians.length ≤ MAX_ACTIVE_FRAMES :=
  have hmem : (⟨[4, 7], [5]⟩ : Window) ∈
      runCalls (fun _ => 0) Window.initial
        [Call.addActiveFrame 4 true, Call.addActiveFrame 5 true, Call.addActiveFrame 6 false,
          Call.marginalizeFrame 5, Call.addActiveFrame 7 true] := by decide
  ⟨hmem, (active_window_never_exceeds_capacity (fun _ => 0) _ _ hmem).1⟩

/-! ## Rollback -/

/-- C7: for every optimization state, every backup flag and all five step
factors, `backupState`, then `doStepFromBackup`, then `loadSateBackup` leaves
every pose (translation and rotation), every affine parameter and every
inverse depth, and the calibration, exactly as they were before the step. -/
theorem rollback_restores_pre_step_state (scaledAdd : Val → Val → Val → Val)
    (canBreak : OptState → Bool) (s : OptState) (backupLastStep : Bool)
    (stepfacC stepfacT stepfacR stepfacA stepfacD : Val) :
    (loadSateBackup
        (doStepFromBackup scaledAdd canBreak (backupState s backupLastStep)
          stepfacC stepfacT stepfacR stepfacA stepfacD).1).state = s.state ∧
    (loadSateBackup
        (doStepFromBackup scaledAdd canBreak (backupState s backupLastStep)
          stepfacC stepfacT stepfacR stepfacA stepfacD).1).state.translation
      = s.state.translation ∧
    (loadSateBackup
        (doStepFromBackup scaledAdd canBreak (backupState s backupLastStep)
          stepfacC stepfacT stepfacR stepfacA stepfacD).1).state.rotation
      = s.state.rotation ∧
    (loadSateBackup
        (doStepFromBackup scaledAdd canBreak (backupState s backupLastStep)
          stepfacC stepfacT stepfacR stepfacA stepfacD).1).state.affine
      = s.state.affine ∧
    (loadSateBackup
        (doStepFromBackup scaledAdd canBreak (backupState s backupLastStep)
          stepfacC stepfacT stepfacR stepfacA stepfacD).1).state.idepth
      = s.state.idepth :=
  ⟨rfl, rfl, rfl, rfl, rfl⟩

end dso
